import Mathlib

/-!
# Verification of the qkd-simulator core

A shallow embedding of the BB84 quantum-key-distribution teaching simulator
(`src/docs/script.js` and the sibling variants under `src/unnamed/`), together
with proofs of the behavioural claims about it.

Modelling conventions:

* JavaScript strings are modelled as `List Char`; JS arrays of numbers as
  `List Nat`.  The bit values produced by the program are the JS numbers `0`
  and `1`, so machine arithmetic (`^`, `<<`, `>>`, `&`, `|`, `%`) is modelled
  on `Nat`, which agrees with JS number semantics on the ranges the program
  uses (all values stay far below 2^31).
* Out-of-range JS array indexing yields `undefined`; each bitwise operator
  applies `ToInt32`, which sends `undefined` to `0`.  Index-based loops are
  therefore embedded with `l[i]?` and `Option.getD _ 0` where the source
  indexes possibly out of range.
* Randomness (`crypto.getRandomValues`, `Math.random`) and the DOM are
  platform services: the random draws are taken as explicit parameters.
* `TextEncoder`/`TextDecoder` are platform services as well; they are
  modelled from the spec as a UTF-8 codec on Unicode scalar values
  (messages are `List Nat` of code points).
-/

set_option maxRecDepth 4000

namespace Qkd

/-- The space character, written via its code point. -/
def spaceChar : Char := Char.ofNat 32

/-- The character class matched by the JS regex escape `\s`
(whitespace: space, tab, line terminators, and the Unicode space
separators, NBSP, and BOM). -/
def isSpaceJs (c : Char) : Bool :=
  c = spaceChar || c = '\t' || c = '\n' || c.toNat = 11 || c.toNat = 12 ||
  c = '\r' || c.toNat = 0xA0 || c.toNat = 0x1680 ||
  (0x2000 ≤ c.toNat && c.toNat ≤ 0x200A) ||
  c.toNat = 0x2028 || c.toNat = 0x2029 || c.toNat = 0x202F ||
  c.toNat = 0x205F || c.toNat = 0x3000 || c.toNat = 0xFEFF

/-- A BB84 basis: the two values the program renders as the strings
`"+"` (rectilinear) and `"×"` (diagonal). -/
inductive Basis where
  | rect
  | diag
deriving DecidableEq

/-- Embeds `siftBits` (src/docs/script.js:46-48, src/unnamed/part_001:19-27):
`bitsA.filter((_, i) => basesA[i] === basesB[i])`.  The callback receives the
index `i` into `bitsA`; `basesA[i]`/`basesB[i]` may be out of range, which JS
`===` compares as `undefined === undefined`, so the lookups are `Option`s. -/
def siftBitsAux {β : Type} [DecidableEq β] (basesA basesB : List β) :
    Nat → List Nat → List Nat
  | _, [] => []
  | i, bit :: rest =>
    if basesA[i]? = basesB[i]? then bit :: siftBitsAux basesA basesB (i + 1) rest
    else siftBitsAux basesA basesB (i + 1) rest

/-- `siftBits(bitsA, basesA, basesB)` — keep `bitsA[i]` exactly when
`basesA[i] === basesB[i]`. -/
def siftBits {β : Type} [DecidableEq β] (bitsA : List Nat) (basesA basesB : List β) :
    List Nat :=
  siftBitsAux basesA basesB 0 bitsA

/-- Embeds `bytesToBits`'s inner loop (src/docs/script.js:51-59):
`for (let i = 7; i >= 0; i--) bits.push((b >> i) & 1)` — the 8 bits of one
byte, most significant first. -/
def byteToBits (b : Nat) : List Nat :=
  (List.range 8).reverse.map (fun i => (b >>> i) &&& 1)

/-- Embeds `bytesToBits` (src/docs/script.js:51-59): concatenate the MSB-first
bit expansions of all the bytes. -/
def bytesToBits (bytes : List Nat) : List Nat :=
  (bytes.map byteToBits).flatten

/-- The byte-accumulation loop shared by both `bitsToBytes` variants:
`v = (v << 1) | bits[i + j]` over one chunk of bits. -/
def byteOfBits (chunk : List Nat) : Nat :=
  chunk.foldl (fun v b => (v <<< 1) ||| b) 0

/-- Fuelled worker splitting a list into chunks of 8 (the `i += 8` loops of
`bitsToBytes`).  The fuel is only there to make the recursion structural;
`chunks8` always supplies enough. -/
def chunksGo {α : Type} : Nat → List α → List (List α)
  | _, [] => []
  | 0, _ :: _ => []
  | fuel + 1, x :: xs => ((x :: xs).take 8) :: chunksGo fuel ((x :: xs).drop 8)

/-- Split a list into successive chunks of (at most) 8 elements. -/
def chunks8 {α : Type} (l : List α) : List (List α) :=
  chunksGo l.length l

/-- Embeds the strict `bitsToBytes` (src/docs/script.js:61-72): it first
computes `full = bits.length - (bits.length % 8)` and converts only the full
8-bit chunks, dropping a trailing partial chunk. -/
def bitsToBytes (bits : List Nat) : List Nat :=
  (chunks8 (bits.take (bits.length - bits.length % 8))).map byteOfBits

/-- Embeds the lenient `bitsToBytes` variant (src/docs/script.js:320-330 and
src/unnamed/part_001:39-49): the loop always runs 8 inner iterations and reads
`bits[i + j] || 0` (resp. lets the `|` operator coerce `undefined` to `0`), so
a trailing partial chunk is zero-padded at the low end instead of dropped. -/
def bitsToBytesPad (bits : List Nat) : List Nat :=
  (chunks8 bits).map (fun chunk => byteOfBits (chunk ++ List.replicate (8 - chunk.length) 0))

/-- Indexed worker for `xorBits`. -/
def xorBitsAux (b : List Nat) : Nat → List Nat → List Nat
  | _, [] => []
  | i, bit :: rest => (bit ^^^ (b[i]?.getD 0)) :: xorBitsAux b (i + 1) rest

/-- Embeds `xorBits` (src/docs/script.js:75-77, src/docs/script.js:338-340,
src/unnamed/part_001:51-57): `a.map((bit, i) => bit ^ b[i])`.  When `i` is
out of range for `b`, JS evaluates `bit ^ undefined = bit ^ 0`. -/
def xorBits (a b : List Nat) : List Nat :=
  xorBitsAux b 0 a

/-- JS truthiness rendering of one bit: `b ? "1" : "0"`. -/
def bitChar (b : Nat) : Char := if b ≠ 0 then '1' else '0'

/-- Embeds `groupBits8` (src/docs/script.js:80-83): render the bits as a
`0`/`1` string and insert a space after every full group of 8
(`s.replace(/(.{8})/g, "$1 ").trim()`), with no trailing separator. -/
def groupBits8 (bits : List Nat) : List Char :=
  List.intercalate [spaceChar] (chunks8 (bits.map bitChar))

/-- One step of the regex `[01\s]*`: every character must be `0`, `1`, or
whitespace. -/
def isBinaryOrSpace (c : Char) : Bool :=
  c = '0' || c = '1' || isSpaceJs c

/-- Kleene-star matcher for a single character class, the shape of the
anchored regexes `^[01\s]*$` / `^[01\s]+$`. -/
def matchClassStar (p : Char → Bool) : List Char → Bool
  | [] => true
  | c :: cs => p c && matchClassStar p cs

/-- Embeds `validateBinaryInput` (src/docs/script.js:98-100 and
src/unnamed/part_001:75-77): `/^[01\s]*$/.test(str)`. -/
def validateBinaryInput (s : List Char) : Bool :=
  matchClassStar isBinaryOrSpace s

/-- Embeds the later `validateBinaryInput` variant (src/docs/script.js:372-374):
`/^[01\s]+$/.test(str)` — same class but the `+` quantifier demands at least
one character. -/
def validateBinaryInputNonempty (s : List Char) : Bool :=
  match s with
  | [] => false
  | c :: cs => isBinaryOrSpace c && matchClassStar isBinaryOrSpace cs

/-- `parseInt(ch, 10)` restricted to the decimal digits the callers feed it. -/
def charDigit (c : Char) : Nat := c.toNat - 48

/-- Embeds `parseBinaryString` (src/docs/script.js:103-105):
`str.replace(/\s/g, "").split("").map(ch => parseInt(ch, 10))`. -/
def parseBinaryString (s : List Char) : List Nat :=
  (s.filter (fun c => !(isSpaceJs c))).map charDigit

/-- JS `String.prototype.trim`: strip whitespace from both ends. -/
def jsTrim (s : List Char) : List Char :=
  ((s.dropWhile (fun c => isSpaceJs c)).reverse.dropWhile (fun c => isSpaceJs c)).reverse

/-- A Unicode scalar value: a code point that is not a surrogate.  These are
exactly the values `TextEncoder` can receive from a JS string (lone
surrogates are replaced before encoding). -/
def UnicodeScalar (c : Nat) : Prop :=
  c < 0x110000 ∧ (c < 0xD800 ∨ 0xE000 ≤ c)

instance (c : Nat) : Decidable (UnicodeScalar c) := by
  unfold UnicodeScalar; infer_instance

/-- Modelled from the spec: `new TextEncoder().encode` (the platform UTF-8
encoder used at src/docs/script.js:126; not part of src/).  UTF-8 encoding of
one Unicode scalar value, written with division/remainder arithmetic. -/
def utf8EncodeChar (c : Nat) : List Nat :=
  if c < 0x80 then [c]
  else if c < 0x800 then [0xC0 + c / 0x40, 0x80 + c % 0x40]
  else if c < 0x10000 then
    [0xE0 + c / 0x1000, 0x80 + c / 0x40 % 0x40, 0x80 + c % 0x40]
  else
    [0xF0 + c / 0x40000, 0x80 + c / 0x1000 % 0x40, 0x80 + c / 0x40 % 0x40, 0x80 + c % 0x40]

/-- Modelled from the spec: UTF-8 encoding of a whole message (sequence of
Unicode scalar values). -/
def utf8Encode (msg : List Nat) : List Nat :=
  (msg.map utf8EncodeChar).flatten

/-- A UTF-8 continuation byte. -/
def IsCont (b : Nat) : Prop := 0x80 ≤ b ∧ b < 0xC0

instance (b : Nat) : Decidable (IsCont b) := by
  unfold IsCont; infer_instance

/-- Continuation of a two-byte UTF-8 sequence with lead byte `b`:
`0xC2 ≤ b` also rejects the overlong lead bytes `0xC0`/`0xC1`. -/
def utf8DecodeTwo (b : Nat) : List Nat → Option (Nat × List Nat)
  | b1 :: rest1 =>
    if 0xC2 ≤ b ∧ IsCont b1 then some ((b - 0xC0) * 0x40 + (b1 - 0x80), rest1)
    else none
  | [] => none

/-- Continuation of a three-byte UTF-8 sequence with lead byte `b`: the
side conditions reject overlong encodings (`0xE0` lead) and surrogates
(`0xED` lead). -/
def utf8DecodeThree (b : Nat) : List Nat → Option (Nat × List Nat)
  | b1 :: b2 :: rest2 =>
    if IsCont b1 ∧ IsCont b2 ∧ (b = 0xE0 → 0xA0 ≤ b1) ∧ (b = 0xED → b1 < 0xA0) then
      some ((b - 0xE0) * 0x1000 + (b1 - 0x80) * 0x40 + (b2 - 0x80), rest2)
    else none
  | _ => none

/-- Continuation of a four-byte UTF-8 sequence with lead byte `b`: the side
conditions reject overlong encodings (`0xF0` lead) and code points beyond
`0x10FFFF` (`0xF4` lead and above). -/
def utf8DecodeFour (b : Nat) : List Nat → Option (Nat × List Nat)
  | b1 :: b2 :: b3 :: rest3 =>
    if b < 0xF5 ∧ IsCont b1 ∧ IsCont b2 ∧ IsCont b3 ∧
        (b = 0xF0 → 0x90 ≤ b1) ∧ (b = 0xF4 → b1 < 0x90) then
      some ((b - 0xF0) * 0x40000 + (b1 - 0x80) * 0x1000 + (b2 - 0x80) * 0x40 + (b3 - 0x80),
        rest3)
    else none
  | _ => none

/-- Decode one UTF-8 scalar value from the front of a byte list, returning
it with the remaining bytes; `none` on any malformed prefix (truncated
sequence, stray continuation byte, overlong form, surrogate, out of range). -/
def utf8DecodeOne : List Nat → Option (Nat × List Nat)
  | [] => none
  | b :: rest =>
    if b < 0x80 then some (b, rest)
    else if b < 0xE0 then utf8DecodeTwo b rest
    else if b < 0xF0 then utf8DecodeThree b rest
    else utf8DecodeFour b rest

/-- Fuelled worker for `utf8Decode`; the fuel only makes the recursion
structural, `utf8Decode` always supplies enough. -/
def utf8DecodeGo : Nat → List Nat → Option (List Nat)
  | _, [] => some []
  | 0, _ :: _ => none
  | fuel + 1, b :: rest =>
    match utf8DecodeOne (b :: rest) with
    | some (c, rest2) => (utf8DecodeGo fuel rest2).map (fun cs => c :: cs)
    | none => none

/-- Modelled from the spec: `new TextDecoder("utf-8", { fatal: true }).decode`
(the platform strict UTF-8 decoder used at src/docs/script.js:253; not part
of src/).  Rejects truncated sequences, stray continuation bytes, overlong
encodings, surrogates and code points beyond `0x10FFFF`; returns the decoded
code points otherwise. -/
def utf8Decode (l : List Nat) : Option (List Nat) :=
  utf8DecodeGo l.length l

/-- Result of the sift-then-slice key-derivation step inside `runQKD`
(`QkdKeyDeriver.deriveKey` in the spec). -/
inductive DeriveKeyResult where
  | ok (key : List Nat)
  | keyTooShort (neededBits gotBits : Nat)
deriving DecidableEq

/-- Embeds the sift-then-slice step of `runQKD` (src/docs/script.js:139-151):
sift, report an error carrying both the needed and the obtained bit counts if
the sifted key is too short, otherwise slice off exactly `targetBits` bits.
The raw bits and bases are parameters because the source draws them from the
platform RNG. -/
def deriveKey (targetBits : Nat) (bitsA : List Nat) (basesA basesB : List Basis) :
    DeriveKeyResult :=
  let sifted := siftBits bitsA basesA basesB
  if sifted.length < targetBits then .keyTooShort targetBits sifted.length
  else .ok (sifted.take targetBits)

/-- The data of the success branch of `runQKD` that the claims are about. -/
structure EncryptOk where
  rawCount : Nat
  siftedCount : Nat
  keyUsedBits : List Char
  ciphertextBits : List Char
deriving DecidableEq

/-- Result of the encryption pipeline `runQKD`. -/
inductive EncryptResult where
  | emptyInput
  | keyTooShort (neededBits gotBits : Nat)
  | ok (r : EncryptOk)
deriving DecidableEq

/-- Embeds `runQKD` (src/docs/script.js:109-192).  The message is the
already-trimmed input value, as a list of Unicode scalar values; the platform
randomness (`randomBits` and the two `randomBases` draws) enters through the
three function parameters, which `runQKD` calls at the raw length `n`.
Mirrors the source: UTF-8-encode the message, expand to bits, oversample by
`MULTIPLIER = 8`, sift, bail out if the sifted key is too short, slice the
key, XOR-encrypt, and return the grouped key/ciphertext strings. -/
def runQKD (rndBits : Nat → List Nat) (rndBasesA rndBasesB : Nat → List Basis)
    (message : List Nat) : EncryptResult :=
  if message.isEmpty then .emptyInput else
  let msgBytes := utf8Encode message
  let msgBits := bytesToBits msgBytes
  let neededKeyBits := msgBits.length
  let n := neededKeyBits * 8
  let bitsA := rndBits n
  let basesA := rndBasesA n
  let basesB := rndBasesB n
  let siftedKey := siftBits bitsA basesA basesB
  if siftedKey.length < neededKeyBits then .keyTooShort neededKeyBits siftedKey.length
  else
    let keyBitsUsed := siftedKey.take neededKeyBits
    let ctBits := xorBits msgBits keyBitsUsed
    .ok ⟨n, siftedKey.length, groupBits8 keyBitsUsed, groupBits8 ctBits⟩

/-- Result of the decryption pipeline `decryptMessage`.  The decoded
plaintext is a list of Unicode scalar values; the `catch` branch around the
strict `TextDecoder` is the `invalidEncoding` variant. -/
inductive DecryptResult where
  | emptyInput
  | invalidCiphertext
  | invalidKey
  | lengthMismatch (ciphertextBits keyBits : Nat)
  | notByteAligned (bitLength : Nat)
  | ok (plaintext : List Nat)
  | invalidEncoding
deriving DecidableEq

/-- Embeds `decryptMessage` (src/docs/script.js:196-262): trim both inputs,
reject if either is empty, validate the ciphertext then the key against
`[01\s]*`, parse both, reject a length mismatch (reporting both lengths),
then reject a length that is not a multiple of 8 (reporting it), XOR, pack
into bytes with the strict `bitsToBytes`, and decode as UTF-8. -/
def decryptMessage (ctStr keyStr : List Char) : DecryptResult :=
  let ctT := jsTrim ctStr
  let keyT := jsTrim keyStr
  if ctT.isEmpty || keyT.isEmpty then .emptyInput
  else if !(validateBinaryInput ctT) then .invalidCiphertext
  else if !(validateBinaryInput keyT) then .invalidKey
  else
    let ctBits := parseBinaryString ctT
    let keyBits := parseBinaryString keyT
    if ctBits.length ≠ keyBits.length then .lengthMismatch ctBits.length keyBits.length
    else if ctBits.length % 8 ≠ 0 then .notByteAligned ctBits.length
    else
      match utf8Decode (bitsToBytes (xorBits ctBits keyBits)) with
      | some cps => .ok cps
      | none => .invalidEncoding

/-- The platform random-number API a `randomBits` variant draws from. -/
inductive RngApi where
  | cryptoGetRandomValues
  | mathRandom
deriving DecidableEq

/-- Embeds `randomBits` of src/docs/script.js:1 (also src/unnamed/part_000):
`[...crypto.getRandomValues(new Uint8Array(len))].map(b => b % 2)`.  The
`len` bytes drawn from the CSPRNG are the parameter. -/
def randomBitsOfBytes (cryptoDraws : List Nat) : List Nat :=
  cryptoDraws.map (fun b => b % 2)

/-- The call target of the src/docs/script.js `randomBits`: the Web Crypto
CSPRNG. -/
def randomBitsApiScriptJs : RngApi := .cryptoGetRandomValues

/-- Embeds `randomBits` of src/unnamed/part_001:3-9:
`arr.push(Math.random() < 0.5 ? 0 : 1)` for each of the `n` draws.  The unit
interval draws of `Math.random` are modelled as rationals. -/
def randomBitsOfFloats (mathRandomDraws : List ℚ) : List Nat :=
  mathRandomDraws.map (fun x => if x < 1 / 2 then 0 else 1)

/-- The call target of the src/unnamed/part_001 `randomBits`: `Math.random`,
a general-purpose (non-cryptographic) PRNG. -/
def randomBitsApiPart001 : RngApi := .mathRandom

/-! ## Chunking lemmas -/

theorem chunksGo_congr {α : Type} :
    ∀ (f1 f2 : Nat) (l : List α), l.length ≤ f1 → l.length ≤ f2 →
      chunksGo f1 l = chunksGo f2 l := by
  intro f1
  induction f1 with
  | zero =>
    intro f2 l h1 _
    have : l = [] := List.eq_nil_of_length_eq_zero (Nat.le_zero.mp h1)
    subst this
    cases f2 <;> rfl
  | succ g1 ih =>
    intro f2 l h1 h2
    cases l with
    | nil => cases f2 <;> rfl
    | cons x xs =>
      cases f2 with
      | zero => simp at h2
      | succ g2 =>
        simp only [chunksGo]
        congr 1
        apply ih
        · rw [List.length_drop]
          simp only [List.length_cons] at h1 ⊢
          omega
        · rw [List.length_drop]
          simp only [List.length_cons] at h2 ⊢
          omega

theorem chunks8_nil {α : Type} : chunks8 ([] : List α) = [] := rfl

theorem chunks8_cons {α : Type} (l : List α) (h : l ≠ []) :
    chunks8 l = l.take 8 :: chunks8 (l.drop 8) := by
  obtain ⟨x, xs, rfl⟩ := List.exists_cons_of_ne_nil h
  show chunksGo (xs.length + 1) (x :: xs) = _
  simp only [chunksGo]
  congr 1
  apply chunksGo_congr
  · rw [List.length_drop]; simp only [List.length_cons]; omega
  · exact le_refl _

theorem flatten_chunks8 {α : Type} (l : List α) : (chunks8 l).flatten = l := by
  by_cases h : l = []
  · subst h; rfl
  · rw [chunks8_cons l h]
    have ih := flatten_chunks8 (l.drop 8)
    simp only [List.flatten_cons, ih, List.take_append_drop]
termination_by l.length
decreasing_by
  rw [List.length_drop]
  have := List.length_pos.mpr h
  omega

theorem chunks8_append8 {α : Type} (c l : List α) (h : c.length = 8) :
    chunks8 (c ++ l) = c :: chunks8 l := by
  have hcne : c ≠ [] := by
    intro hc; subst hc; simp at h
  have hne : c ++ l ≠ [] := by
    simp [hcne]
  rw [chunks8_cons _ hne]
  rw [List.take_append_eq_append_take, List.drop_append_eq_append_drop, h]
  simp only [Nat.sub_self, List.take_zero, List.drop_zero, List.append_nil]
  rw [show c.take 8 = c from by rw [← h]; exact List.take_length c]
  rw [show c.drop 8 = [] from by rw [← h]; exact List.drop_length c]
  simp

theorem chunks8_length_eight {α : Type} (l : List α) (h : l.length % 8 = 0) :
    ∀ c ∈ chunks8 l, c.length = 8 := by
  by_cases hn : l = []
  · subst hn; intro c hc; simp [chunks8_nil] at hc
  · rw [chunks8_cons l hn]
    intro c hc
    rcases List.mem_cons.mp hc with rfl | hc
    · rw [List.length_take]
      have := List.length_pos.mpr hn
      omega
    · exact chunks8_length_eight (l.drop 8) (by rw [List.length_drop]; omega) c hc
termination_by l.length
decreasing_by
  rw [List.length_drop]
  have := List.length_pos.mpr hn
  omega

/-! ## Byte/bit codec lemmas -/

theorem byteToBits_length (b : Nat) : (byteToBits b).length = 8 := by
  simp [byteToBits]

theorem byteOfBits_byteToBits : ∀ b < 256, byteOfBits (byteToBits b) = b := by decide

theorem bytesToBits_cons (b : Nat) (bs : List Nat) :
    bytesToBits (b :: bs) = byteToBits b ++ bytesToBits bs := by
  simp [bytesToBits]

theorem bytesToBits_length (B : List Nat) : (bytesToBits B).length = 8 * B.length := by
  induction B with
  | nil => rfl
  | cons b bs ih =>
    rw [bytesToBits_cons, List.length_append, byteToBits_length, ih, List.length_cons]
    omega

theorem bytesToBits_le_one (B : List Nat) : ∀ x ∈ bytesToBits B, x ≤ 1 := by
  intro x hx
  simp only [bytesToBits, List.mem_flatten, List.mem_map] at hx
  obtain ⟨l, ⟨b, _, rfl⟩, hxl⟩ := hx
  simp only [byteToBits, List.mem_map] at hxl
  obtain ⟨i, _, rfl⟩ := hxl
  exact Nat.and_le_right

theorem chunks8_bytesToBits (B : List Nat) :
    chunks8 (bytesToBits B) = B.map byteToBits := by
  induction B with
  | nil => rfl
  | cons b bs ih =>
    rw [bytesToBits_cons, chunks8_append8 _ _ (byteToBits_length b), ih, List.map_cons]

theorem bitsToBytes_bytesToBits (B : List Nat) (h : ∀ b ∈ B, b < 256) :
    bitsToBytes (bytesToBits B) = B := by
  unfold bitsToBytes
  have hlen : (bytesToBits B).length % 8 = 0 := by rw [bytesToBits_length]; omega
  rw [show (bytesToBits B).length - (bytesToBits B).length % 8 = (bytesToBits B).length from by
    omega]
  rw [List.take_length, chunks8_bytesToBits, List.map_map]
  have hcongr : ∀ b ∈ B, (byteOfBits ∘ byteToBits) b = id b := fun b hb =>
    byteOfBits_byteToBits b (h b hb)
  rw [List.map_congr_left hcongr, List.map_id]

/-! ## XOR lemmas -/

theorem xorBitsAux_cons (b : List Nat) (i bit : Nat) (rest : List Nat) :
    xorBitsAux b i (bit :: rest) =
      (bit ^^^ (b[i]?.getD 0)) :: xorBitsAux b (i + 1) rest := rfl

theorem xorBitsAux_length (b : List Nat) :
    ∀ (i : Nat) (a : List Nat), (xorBitsAux b i a).length = a.length := by
  intro i a
  induction a generalizing i with
  | nil => rfl
  | cons bit rest ih => simp [xorBitsAux_cons, ih]

theorem xorBits_length (a b : List Nat) : (xorBits a b).length = a.length :=
  xorBitsAux_length b 0 a

theorem xorBitsAux_xorBitsAux (key : List Nat) :
    ∀ (i : Nat) (a : List Nat), xorBitsAux key i (xorBitsAux key i a) = a := by
  intro i a
  induction a generalizing i with
  | nil => rfl
  | cons bit rest ih =>
    rw [xorBitsAux_cons, xorBitsAux_cons, ih]
    rw [Nat.xor_assoc, Nat.xor_self, Nat.xor_zero]

theorem xorBits_involution (a key : List Nat) :
    xorBits (xorBits a key) key = a :=
  xorBitsAux_xorBitsAux key 0 a

theorem xorBitsAux_getElem?_of_ge (b : List Nat) :
    ∀ (i : Nat) (a : List Nat) (j : Nat), b.length ≤ i + j →
      (xorBitsAux b i a)[j]? = a[j]? := by
  intro i a
  induction a generalizing i with
  | nil => intro j _; rfl
  | cons bit rest ih =>
    intro j hj
    cases j with
    | zero =>
      rw [xorBitsAux_cons]
      simp only [List.getElem?_cons_zero]
      have : b[i]? = none := List.getElem?_eq_none (by omega)
      rw [this]
      simp [Nat.xor_zero]
    | succ k =>
      rw [xorBitsAux_cons]
      simp only [List.getElem?_cons_succ]
      exact ih (i + 1) k (by omega)

theorem xorBitsAux_le_one (b : List Nat) (hb : ∀ x ∈ b, x ≤ 1) :
    ∀ (i : Nat) (a : List Nat), (∀ x ∈ a, x ≤ 1) →
      ∀ x ∈ xorBitsAux b i a, x ≤ 1 := by
  intro i a
  induction a generalizing i with
  | nil => intro _ x hx; simp [xorBitsAux] at hx
  | cons bit rest ih =>
    intro ha x hx
    rw [xorBitsAux_cons] at hx
    rcases List.mem_cons.mp hx with rfl | hx
    · have h1 : bit ≤ 1 := ha bit (List.mem_cons_self ..)
      have h2 : b[i]?.getD 0 ≤ 1 := by
        cases hg : b[i]? with
        | none => simp
        | some v =>
          simp only [Option.getD_some]
          exact hb v (List.getElem?_mem hg)
      interval_cases bit <;> interval_cases h : (b[i]?.getD 0) <;> simp [h]
    · exact ih (i + 1) (fun y hy => ha y (List.mem_cons_of_mem _ hy)) x hx

theorem xorBits_le_one (a b : List Nat) (ha : ∀ x ∈ a, x ≤ 1) (hb : ∀ x ∈ b, x ≤ 1) :
    ∀ x ∈ xorBits a b, x ≤ 1 :=
  xorBitsAux_le_one b hb 0 a ha

/-! ## Sifting lemmas -/

theorem siftBitsAux_nil {β : Type} [DecidableEq β] (basesA basesB : List β) (i : Nat) :
    siftBitsAux basesA basesB i [] = [] := rfl

theorem siftBitsAux_cons {β : Type} [DecidableEq β] (basesA basesB : List β)
    (i bit : Nat) (rest : List Nat) :
    siftBitsAux basesA basesB i (bit :: rest) =
      if basesA[i]? = basesB[i]? then bit :: siftBitsAux basesA basesB (i + 1) rest
      else siftBitsAux basesA basesB (i + 1) rest := rfl

theorem siftBitsAux_shift {β : Type} [DecidableEq β] (a b : β) (as bs : List β) :
    ∀ (bits : List Nat) (i : Nat),
      siftBitsAux (a :: as) (b :: bs) (i + 1) bits = siftBitsAux as bs i bits := by
  intro bits
  induction bits with
  | nil => intro i; rfl
  | cons bit rest ih =>
    intro i
    rw [siftBitsAux_cons, siftBitsAux_cons]
    simp only [List.getElem?_cons_succ]
    rw [ih (i + 1)]

theorem siftBitsAux_subset {β : Type} [DecidableEq β] (basesA basesB : List β) :
    ∀ (i : Nat) (bits : List Nat), ∀ x ∈ siftBitsAux basesA basesB i bits, x ∈ bits := by
  intro i bits
  induction bits generalizing i with
  | nil => intro x hx; simp [siftBitsAux_nil] at hx
  | cons bit rest ih =>
    intro x hx
    rw [siftBitsAux_cons] at hx
    by_cases hc : basesA[i]? = basesB[i]?
    · rw [if_pos hc] at hx
      rcases List.mem_cons.mp hx with rfl | hx
      · exact List.mem_cons_self ..
      · exact List.mem_cons_of_mem _ (ih (i + 1) x hx)
    · rw [if_neg hc] at hx
      exact List.mem_cons_of_mem _ (ih (i + 1) x hx)

theorem siftBits_subset {β : Type} [DecidableEq β] (bitsA : List Nat)
    (basesA basesB : List β) : ∀ x ∈ siftBits bitsA basesA basesB, x ∈ bitsA :=
  siftBitsAux_subset basesA basesB 0 bitsA

theorem siftBits_eq_filter_zip {β : Type} [DecidableEq β] :
    ∀ (bitsA : List Nat) (basesA basesB : List β),
      basesA.length = bitsA.length → basesB.length = bitsA.length →
      siftBits bitsA basesA basesB =
        (((bitsA.zip basesA).zip basesB).filter
          (fun p => decide (p.1.2 = p.2))).map (fun p => p.1.1) := by
  intro bitsA
  induction bitsA with
  | nil =>
    intro basesA basesB hA hB
    have h1 : basesA = [] := List.length_eq_zero.mp (by simpa using hA)
    have h2 : basesB = [] := List.length_eq_zero.mp (by simpa using hB)
    subst h1; subst h2
    rfl
  | cons bit rest ih =>
    intro basesA basesB hA hB
    obtain ⟨a, as, rfl⟩ := List.exists_cons_of_ne_nil
      (by intro hh; rw [hh] at hA; simp at hA : basesA ≠ [])
    obtain ⟨b, bs, rfl⟩ := List.exists_cons_of_ne_nil
      (by intro hh; rw [hh] at hB; simp at hB : basesB ≠ [])
    show siftBitsAux (a :: as) (b :: bs) 0 (bit :: rest) = _
    rw [siftBitsAux_cons, siftBitsAux_shift]
    simp only [List.getElem?_cons_zero, List.zip_cons_cons, List.filter_cons]
    simp only [List.length_cons] at hA hB
    have hrest := ih as bs (by omega) (by omega)
    by_cases hab : a = b
    · rw [if_pos (by rw [hab]), if_pos (by simpa using hab)]
      simp only [List.map_cons]
      rw [← hrest]; rfl
    · rw [if_neg (by simpa using hab), if_neg (by simpa using hab)]
      rw [← hrest]; rfl

/-! ## Validation, parsing, trimming and grouping lemmas -/

theorem matchClassStar_iff (p : Char → Bool) (s : List Char) :
    matchClassStar p s = true ↔ ∀ c ∈ s, p c = true := by
  induction s with
  | nil => simp [matchClassStar]
  | cons c cs ih => simp [matchClassStar, ih]

theorem validateBinaryInput_iff (s : List Char) :
    validateBinaryInput s = true ↔ ∀ c ∈ s, isBinaryOrSpace c = true :=
  matchClassStar_iff isBinaryOrSpace s

theorem validateBinaryInputNonempty_iff (s : List Char) :
    validateBinaryInputNonempty s = true ↔
      s ≠ [] ∧ ∀ c ∈ s, isBinaryOrSpace c = true := by
  cases s with
  | nil => simp [validateBinaryInputNonempty]
  | cons c cs => simp [validateBinaryInputNonempty, matchClassStar_iff]

theorem filter_not_dropWhile (p : Char → Bool) :
    ∀ s : List Char, (s.dropWhile p).filter (fun c => !(p c)) = s.filter (fun c => !(p c)) := by
  intro s
  induction s with
  | nil => rfl
  | cons c cs ih =>
    by_cases hc : p c
    · rw [List.dropWhile_cons_of_pos hc, ih, List.filter_cons]
      simp [hc]
    · rw [List.dropWhile_cons_of_neg hc]

theorem filter_not_jsTrim (s : List Char) :
    (jsTrim s).filter (fun c => !(isSpaceJs c)) = s.filter (fun c => !(isSpaceJs c)) := by
  unfold jsTrim
  rw [List.filter_reverse, filter_not_dropWhile, List.filter_reverse,
    List.reverse_reverse, filter_not_dropWhile]

theorem parseBinaryString_jsTrim (s : List Char) :
    parseBinaryString (jsTrim s) = parseBinaryString s := by
  unfold parseBinaryString
  rw [filter_not_jsTrim]

theorem mem_jsTrim (s : List Char) : ∀ c ∈ jsTrim s, c ∈ s := by
  intro c hc
  unfold jsTrim at hc
  rw [List.mem_reverse] at hc
  have h1 : c ∈ (s.dropWhile (fun c => isSpaceJs c)).reverse :=
    (List.dropWhile_sublist _).subset hc
  rw [List.mem_reverse] at h1
  exact (List.dropWhile_sublist _).subset h1

theorem intercalate_nil_chunks (sep : List Char) :
    List.intercalate sep ([] : List (List Char)) = [] := by
  simp [List.intercalate]

theorem intercalate_single (sep : List Char) (c : List Char) :
    List.intercalate sep [c] = c := by
  simp [List.intercalate]

theorem intercalate_cons2 (sep : List Char) (c d : List Char) (L : List (List Char)) :
    List.intercalate sep (c :: d :: L) = c ++ sep ++ List.intercalate sep (d :: L) := by
  simp [List.intercalate, List.intersperse]

theorem filter_nsp_intercalate :
    ∀ L : List (List Char),
      (List.intercalate [spaceChar] L).filter (fun c => !(isSpaceJs c)) =
        L.flatten.filter (fun c => !(isSpaceJs c)) := by
  intro L
  induction L with
  | nil => rfl
  | cons a rest ih =>
    cases rest with
    | nil => rw [intercalate_single]; simp
    | cons d L2 =>
      rw [intercalate_cons2, List.filter_append, List.filter_append, ih]
      have hsp : ([spaceChar].filter (fun c => !(isSpaceJs c))) = [] := by decide
      rw [hsp, List.flatten_cons, List.filter_append]
      simp

theorem mem_intercalate_space (L : List (List Char)) (c : Char)
    (hc : c ∈ List.intercalate [spaceChar] L) : c = spaceChar ∨ ∃ x ∈ L, c ∈ x := by
  induction L with
  | nil => rw [intercalate_nil_chunks] at hc; simp at hc
  | cons a rest ih =>
    cases rest with
    | nil =>
      rw [intercalate_single] at hc
      exact Or.inr ⟨a, by simp, hc⟩
    | cons d L2 =>
      rw [intercalate_cons2, List.append_assoc, List.mem_append] at hc
      rcases hc with hc | hc
      · exact Or.inr ⟨a, by simp, hc⟩
      · rw [List.mem_append] at hc
        rcases hc with hc | hc
        · exact Or.inl (by simpa using hc)
        · rcases ih hc with h | ⟨x, hx, hcx⟩
          · exact Or.inl h
          · exact Or.inr ⟨x, List.mem_cons_of_mem _ hx, hcx⟩

theorem chunks8_mem_subset {α : Type} (l : List α) :
    ∀ c ∈ chunks8 l, ∀ x ∈ c, x ∈ l := by
  by_cases h : l = []
  · subst h; intro c hc; simp [chunks8_nil] at hc
  · rw [chunks8_cons l h]
    intro c hc x hx
    rcases List.mem_cons.mp hc with rfl | hc
    · exact List.take_subset 8 l hx
    · exact List.drop_subset 8 l (chunks8_mem_subset (l.drop 8) c hc x hx)
termination_by l.length
decreasing_by
  rw [List.length_drop]
  have := List.length_pos.mpr h
  omega

theorem bitChar_not_space (b : Nat) : isSpaceJs (bitChar b) = false := by
  unfold bitChar
  split <;> decide

theorem bitChar_01 (b : Nat) : bitChar b = '0' ∨ bitChar b = '1' := by
  unfold bitChar
  split
  · exact Or.inr rfl
  · exact Or.inl rfl

theorem charDigit_bitChar (b : Nat) (h : b ≤ 1) : charDigit (bitChar b) = b := by
  interval_cases b <;> decide

theorem groupBits8_filter (bits : List Nat) :
    (groupBits8 bits).filter (fun c => !(isSpaceJs c)) = bits.map bitChar := by
  unfold groupBits8
  rw [filter_nsp_intercalate, flatten_chunks8]
  apply List.filter_eq_self.mpr
  intro c hc
  obtain ⟨b, _, rfl⟩ := List.mem_map.mp hc
  simp [bitChar_not_space]

theorem parseBinaryString_groupBits8 (bits : List Nat) (h : ∀ b ∈ bits, b ≤ 1) :
    parseBinaryString (groupBits8 bits) = bits := by
  unfold parseBinaryString
  rw [groupBits8_filter, List.map_map]
  have hcongr : ∀ b ∈ bits, (charDigit ∘ bitChar) b = id b := fun b hb =>
    charDigit_bitChar b (h b hb)
  rw [List.map_congr_left hcongr, List.map_id]

theorem groupBits8_chars (bits : List Nat) :
    ∀ c ∈ groupBits8 bits, isBinaryOrSpace c = true := by
  intro c hc
  unfold groupBits8 at hc
  rcases mem_intercalate_space _ c hc with rfl | ⟨x, hx, hcx⟩
  · decide
  · have hmem : c ∈ bits.map bitChar := chunks8_mem_subset _ x hx c hcx
    obtain ⟨b, _, rfl⟩ := List.mem_map.mp hmem
    rcases bitChar_01 b with h | h <;> rw [h] <;> decide

theorem validateBinaryInput_jsTrim_groupBits8 (bits : List Nat) :
    validateBinaryInput (jsTrim (groupBits8 bits)) = true := by
  rw [validateBinaryInput_iff]
  intro c hc
  exact groupBits8_chars bits c (mem_jsTrim _ c hc)

theorem parseBinaryString_jsTrim_groupBits8 (bits : List Nat) (h : ∀ b ∈ bits, b ≤ 1) :
    parseBinaryString (jsTrim (groupBits8 bits)) = bits := by
  rw [parseBinaryString_jsTrim, parseBinaryString_groupBits8 bits h]

theorem jsTrim_groupBits8_isEmpty_eq_false (bits : List Nat) (h : bits ≠ []) :
    (jsTrim (groupBits8 bits)).isEmpty = false := by
  cases hE : (jsTrim (groupBits8 bits)).isEmpty
  · rfl
  · exfalso
    have hnil : jsTrim (groupBits8 bits) = [] := by
      rwa [List.isEmpty_iff] at hE
    have hfil := filter_not_jsTrim (groupBits8 bits)
    rw [hnil, groupBits8_filter] at hfil
    have : bits.map bitChar = [] := hfil.symm
    rw [List.map_eq_nil_iff] at this
    exact h this

/-! ## UTF-8 codec lemmas -/

theorem utf8EncodeChar_ne_nil (c : Nat) : utf8EncodeChar c ≠ [] := by
  unfold utf8EncodeChar
  split
  · simp
  · split
    · simp
    · split <;> simp

theorem utf8EncodeChar_lt_256 (c : Nat) (h : c < 0x110000) :
    ∀ b ∈ utf8EncodeChar c, b < 256 := by
  intro b hb
  unfold utf8EncodeChar at hb
  split at hb
  · simp at hb; omega
  · split at hb
    · simp at hb
      rcases hb with rfl | rfl <;> omega
    · split at hb
      · simp at hb
        rcases hb with rfl | rfl | rfl <;> omega
      · simp at hb
        rcases hb with rfl | rfl | rfl | rfl <;> omega

theorem utf8Encode_cons (c : Nat) (ms : List Nat) :
    utf8Encode (c :: ms) = utf8EncodeChar c ++ utf8Encode ms := by
  simp [utf8Encode]

theorem utf8Encode_lt_256 (msg : List Nat) (h : ∀ c ∈ msg, UnicodeScalar c) :
    ∀ b ∈ utf8Encode msg, b < 256 := by
  intro b hb
  simp only [utf8Encode, List.mem_flatten, List.mem_map] at hb
  obtain ⟨l, ⟨c, hc, rfl⟩, hbl⟩ := hb
  exact utf8EncodeChar_lt_256 c (h c hc).1 b hbl

theorem utf8Encode_ne_nil (msg : List Nat) (h : msg ≠ []) : utf8Encode msg ≠ [] := by
  obtain ⟨c, ms, rfl⟩ := List.exists_cons_of_ne_nil h
  rw [utf8Encode_cons]
  intro hcontra
  rcases List.append_eq_nil.mp hcontra with ⟨h1, _⟩
  exact utf8EncodeChar_ne_nil c h1

theorem utf8DecodeOne_length (l : List Nat) (c : Nat) (r : List Nat)
    (h : utf8DecodeOne l = some (c, r)) : r.length < l.length := by
  cases l with
  | nil => simp [utf8DecodeOne] at h
  | cons b rest =>
    simp only [utf8DecodeOne] at h
    by_cases h1 : b < 0x80
    · rw [if_pos h1] at h
      obtain ⟨_, rfl⟩ : b = c ∧ rest = r := by
        constructor <;> [exact congrArg Prod.fst (Option.some.inj h);
          exact congrArg Prod.snd (Option.some.inj h)]
      simp
    · rw [if_neg h1] at h
      by_cases h2 : b < 0xE0
      · rw [if_pos h2] at h
        cases rest with
        | nil => simp [utf8DecodeTwo] at h
        | cons b1 rest1 =>
          simp only [utf8DecodeTwo] at h
          split at h
          · have : rest1 = r := congrArg Prod.snd (Option.some.inj h)
            subst this
            simp only [List.length_cons]
            omega
          · exact absurd h (by simp)
      · rw [if_neg h2] at h
        by_cases h3 : b < 0xF0
        · rw [if_pos h3] at h
          match rest, h with
          | b1 :: b2 :: rest2, h =>
            simp only [utf8DecodeThree] at h
            split at h
            · have : rest2 = r := congrArg Prod.snd (Option.some.inj h)
              subst this
              simp only [List.length_cons]
              omega
            · exact absurd h (by simp)
        · rw [if_neg h3] at h
          match rest, h with
          | b1 :: b2 :: b3 :: rest3, h =>
            simp only [utf8DecodeFour] at h
            split at h
            · have : rest3 = r := congrArg Prod.snd (Option.some.inj h)
              subst this
              simp only [List.length_cons]
              omega
            · exact absurd h (by simp)

theorem utf8DecodeGo_congr :
    ∀ (f1 f2 : Nat) (l : List Nat), l.length ≤ f1 → l.length ≤ f2 →
      utf8DecodeGo f1 l = utf8DecodeGo f2 l := by
  intro f1
  induction f1 with
  | zero =>
    intro f2 l h1 _
    have : l = [] := List.eq_nil_of_length_eq_zero (Nat.le_zero.mp h1)
    subst this
    cases f2 <;> rfl
  | succ g1 ih =>
    intro f2 l h1 h2
    cases l with
    | nil => cases f2 <;> rfl
    | cons b rest =>
      cases f2 with
      | zero => simp at h2
      | succ g2 =>
        simp only [utf8DecodeGo]
        cases hone : utf8DecodeOne (b :: rest) with
        | none => rfl
        | some pr =>
          obtain ⟨c, r2⟩ := pr
          have hlen := utf8DecodeOne_length _ _ _ hone
          simp only [List.length_cons] at hlen h1 h2
          show Option.map (fun cs => c :: cs) (utf8DecodeGo g1 r2) =
            Option.map (fun cs => c :: cs) (utf8DecodeGo g2 r2)
          rw [ih g2 r2 (by omega) (by omega)]

theorem utf8Decode_cons (x : Nat) (xs : List Nat) :
    utf8Decode (x :: xs) =
      match utf8DecodeOne (x :: xs) with
      | some (c, r) => (utf8Decode r).map (fun cs => c :: cs)
      | none => none := by
  show utf8DecodeGo (x :: xs).length (x :: xs) = _
  simp only [List.length_cons, utf8DecodeGo]
  cases hone : utf8DecodeOne (x :: xs) with
  | none => rfl
  | some pr =>
    obtain ⟨c, r2⟩ := pr
    have hlen := utf8DecodeOne_length _ _ _ hone
    simp only [List.length_cons] at hlen
    show Option.map (fun cs => c :: cs) (utf8DecodeGo xs.length r2) =
      Option.map (fun cs => c :: cs) (utf8Decode r2)
    rw [utf8DecodeGo_congr xs.length r2.length r2 (by omega) (le_refl _)]
    rfl

theorem utf8DecodeOne_encodeChar (c : Nat) (h : UnicodeScalar c) (rest : List Nat) :
    utf8DecodeOne (utf8EncodeChar c ++ rest) = some (c, rest) := by
  obtain ⟨hlt, hsur⟩ := h
  unfold utf8EncodeChar
  by_cases h1 : c < 0x80
  · rw [if_pos h1]
    show utf8DecodeOne (c :: rest) = _
    simp only [utf8DecodeOne]
    rw [if_pos h1]
  · rw [if_neg h1]
    by_cases h2 : c < 0x800
    · rw [if_pos h2]
      show utf8DecodeOne ((0xC0 + c / 0x40) :: (0x80 + c % 0x40) :: rest) = _
      simp only [utf8DecodeOne, utf8DecodeTwo]
      rw [if_neg (by omega), if_pos (by omega),
        if_pos (by simp only [IsCont]; omega)]
      have hv : (0xC0 + c / 0x40 - 0xC0) * 0x40 + (0x80 + c % 0x40 - 0x80) = c := by omega
      rw [hv]
    · rw [if_neg h2]
      by_cases h3 : c < 0x10000
      · rw [if_pos h3]
        show utf8DecodeOne
          ((0xE0 + c / 0x1000) :: (0x80 + c / 0x40 % 0x40) :: (0x80 + c % 0x40) :: rest) = _
        simp only [utf8DecodeOne, utf8DecodeThree]
        rw [if_neg (by omega), if_neg (by omega), if_pos (by omega),
          if_pos (by simp only [IsCont]; omega)]
        have hv : (0xE0 + c / 0x1000 - 0xE0) * 0x1000 +
            (0x80 + c / 0x40 % 0x40 - 0x80) * 0x40 + (0x80 + c % 0x40 - 0x80) = c := by
          omega
        rw [hv]
      · rw [if_neg h3]
        show utf8DecodeOne
          ((0xF0 + c / 0x40000) :: (0x80 + c / 0x1000 % 0x40) ::
            (0x80 + c / 0x40 % 0x40) :: (0x80 + c % 0x40) :: rest) = _
        simp only [utf8DecodeOne, utf8DecodeFour]
        rw [if_neg (by omega), if_neg (by omega), if_neg (by omega),
          if_pos (by simp only [IsCont]; omega)]
        have hv : (0xF0 + c / 0x40000 - 0xF0) * 0x40000 +
            (0x80 + c / 0x1000 % 0x40 - 0x80) * 0x1000 +
            (0x80 + c / 0x40 % 0x40 - 0x80) * 0x40 + (0x80 + c % 0x40 - 0x80) = c := by
          omega
        rw [hv]

theorem utf8Decode_encodeChar (c : Nat) (h : UnicodeScalar c) (rest : List Nat) :
    utf8Decode (utf8EncodeChar c ++ rest) = (utf8Decode rest).map (fun cs => c :: cs) := by
  obtain ⟨y, ys, hE⟩ := List.exists_cons_of_ne_nil (utf8EncodeChar_ne_nil c)
  have hsplit : utf8EncodeChar c ++ rest = y :: (ys ++ rest) := by rw [hE]; rfl
  rw [hsplit, utf8Decode_cons]
  rw [show y :: (ys ++ rest) = utf8EncodeChar c ++ rest from hsplit.symm]
  rw [utf8DecodeOne_encodeChar c h rest]

theorem utf8Decode_utf8Encode (msg : List Nat) (h : ∀ c ∈ msg, UnicodeScalar c) :
    utf8Decode (utf8Encode msg) = some msg := by
  induction msg with
  | nil => rfl
  | cons c ms ih =>
    rw [utf8Encode_cons, utf8Decode_encodeChar c (h c (List.mem_cons_self ..)) _,
      ih (fun x hx => h x (List.mem_cons_of_mem _ hx))]
    rfl

/-! ## Behaviour of `decryptMessage` on well-formed grouped inputs -/

theorem decryptMessage_groupBits8 (msgBits keyUsed : List Nat)
    (hmb : ∀ b ∈ msgBits, b ≤ 1) (hkb : ∀ b ∈ keyUsed, b ≤ 1)
    (hlen : keyUsed.length = msgBits.length) (hne : msgBits ≠ [])
    (h8 : msgBits.length % 8 = 0) :
    decryptMessage (groupBits8 (xorBits msgBits keyUsed)) (groupBits8 keyUsed) =
      match utf8Decode (bitsToBytes msgBits) with
      | some cps => .ok cps
      | none => .invalidEncoding := by
  have hct1 : ∀ b ∈ xorBits msgBits keyUsed, b ≤ 1 := xorBits_le_one _ _ hmb hkb
  have hctlen : (xorBits msgBits keyUsed).length = msgBits.length := xorBits_length _ _
  have hmpos : 0 < msgBits.length := List.length_pos.mpr hne
  have hctne : xorBits msgBits keyUsed ≠ [] := by
    intro hc
    rw [hc] at hctlen
    simp at hctlen
    omega
  have hkne : keyUsed ≠ [] := by
    intro hc
    rw [hc] at hlen
    simp at hlen
    omega
  simp only [decryptMessage]
  rw [jsTrim_groupBits8_isEmpty_eq_false _ hctne, jsTrim_groupBits8_isEmpty_eq_false _ hkne]
  rw [Bool.or_self]
  rw [if_neg (by decide)]
  rw [validateBinaryInput_jsTrim_groupBits8 (xorBits msgBits keyUsed)]
  rw [if_neg (by decide)]
  rw [validateBinaryInput_jsTrim_groupBits8 keyUsed]
  rw [if_neg (by decide)]
  rw [parseBinaryString_jsTrim_groupBits8 _ hct1, parseBinaryString_jsTrim_groupBits8 _ hkb]
  rw [if_neg (by rw [hctlen, hlen]; exact fun hc => hc rfl)]
  rw [if_neg (by rw [hctlen]; exact fun hc => hc h8)]
  rw [xorBits_involution]

/-! ## Claims -/

/-- C1: end-to-end round trip.  For every non-empty message, `runQKD`
requests `targetBits = 8 ×` (UTF-8 byte length), draws `rawCount =
targetBits × 8` raw bits, and on success returns a grouped key string that,
with the grouping spaces removed, has exactly `targetBits` characters, all
`0`/`1`; feeding the returned ciphertext bits and that exact key into
`decryptMessage` returns the original plaintext.  The platform RNG enters
through the three draw functions; the draws are bits. -/
theorem encrypt_decrypt_roundtrip
    (msg : List Nat) (hmsg : msg ≠ []) (hval : ∀ c ∈ msg, UnicodeScalar c)
    (rndBits : Nat → List Nat) (rndBasesA rndBasesB : Nat → List Basis)
    (hrlen : ∀ m, (rndBits m).length = m)
    (hrbit : ∀ m, ∀ b ∈ rndBits m, b ≤ 1)
    (r : EncryptOk)
    (hok : runQKD rndBits rndBasesA rndBasesB msg = .ok r) :
    r.rawCount = (8 * (utf8Encode msg).length) * 8 ∧
    (rndBits r.rawCount).length = (8 * (utf8Encode msg).length) * 8 ∧
    (r.keyUsedBits.filter (fun c => !(isSpaceJs c))).length =
      8 * (utf8Encode msg).length ∧
    (∀ c ∈ r.keyUsedBits.filter (fun c => !(isSpaceJs c)), c = '0' ∨ c = '1') ∧
    decryptMessage r.ciphertextBits r.keyUsedBits = .ok msg := by
  have hM : msg.isEmpty = false := by
    cases msg with
    | nil => exact absurd rfl hmsg
    | cons _ _ => rfl
  have hBne : utf8Encode msg ≠ [] := utf8Encode_ne_nil msg hmsg
  have hBlt := utf8Encode_lt_256 msg hval
  have hmblen : (bytesToBits (utf8Encode msg)).length = 8 * (utf8Encode msg).length :=
    bytesToBits_length _
  simp only [runQKD, hM, Bool.false_eq_true, if_false] at hok
  split at hok
  · cases hok
  · next hns =>
    obtain rfl := (EncryptResult.ok.inj hok).symm
    refine ⟨?_, ?_, ?_, ?_, ?_⟩
    · show (bytesToBits (utf8Encode msg)).length * 8 = (8 * (utf8Encode msg).length) * 8
      rw [hmblen]
    · show (rndBits ((bytesToBits (utf8Encode msg)).length * 8)).length = _
      rw [hrlen, hmblen]
    · show ((groupBits8 _).filter (fun c => !(isSpaceJs c))).length = _
      rw [groupBits8_filter, List.length_map, List.length_take]
      omega
    · intro c hc
      rw [groupBits8_filter] at hc
      obtain ⟨b, _, rfl⟩ := List.mem_map.mp hc
      exact bitChar_01 b
    · have hkb : ∀ b ∈ (siftBits (rndBits ((bytesToBits (utf8Encode msg)).length * 8))
          (rndBasesA ((bytesToBits (utf8Encode msg)).length * 8))
          (rndBasesB ((bytesToBits (utf8Encode msg)).length * 8))).take
            (bytesToBits (utf8Encode msg)).length, b ≤ 1 := by
        intro b hb
        exact hrbit _ b (siftBits_subset _ _ _ b (List.take_subset _ _ hb))
      have hlen2 : ((siftBits (rndBits ((bytesToBits (utf8Encode msg)).length * 8))
          (rndBasesA ((bytesToBits (utf8Encode msg)).length * 8))
          (rndBasesB ((bytesToBits (utf8Encode msg)).length * 8))).take
            (bytesToBits (utf8Encode msg)).length).length =
          (bytesToBits (utf8Encode msg)).length := by
        rw [List.length_take]
        omega
      have hne2 : bytesToBits (utf8Encode msg) ≠ [] := by
        intro hc
        have hlen0 := congrArg List.length hc
        rw [hmblen] at hlen0
        simp only [List.length_nil] at hlen0
        exact hBne (List.length_eq_zero.mp (by omega))
      show decryptMessage (groupBits8 _) (groupBits8 _) = _
      rw [decryptMessage_groupBits8 (bytesToBits (utf8Encode msg)) _
        (bytesToBits_le_one _) hkb hlen2 hne2 (by rw [hmblen]; omega)]
      rw [bitsToBytes_bytesToBits _ hBlt, utf8Decode_utf8Encode msg hval]

/-- Concrete grouped key used by the C1 witness: sixteen `1` bits, grouped. -/
def roundTripKeyChars : List Char := groupBits8 (List.replicate 16 1)

/-- Concrete grouped ciphertext used by the C1 witness: the bits of `"Hi"`
XORed with the all-ones key, grouped. -/
def roundTripCtChars : List Char :=
  groupBits8 [1, 0, 1, 1, 0, 1, 1, 1, 1, 0, 0, 1, 0, 1, 1, 0]

/-- Witness for C1: with all-ones bit draws and agreeing bases on both
sides, encrypting the message `"Hi"` (code points 72, 105) succeeds and
decrypting the returned ciphertext with the returned key yields it back. -/
theorem encrypt_decrypt_roundtrip_witness :
    decryptMessage roundTripCtChars roundTripKeyChars = .ok [72, 105] :=
  (encrypt_decrypt_roundtrip [72, 105] (by decide) (by decide)
    (fun m => List.replicate m 1) (fun m => List.replicate m Basis.rect)
    (fun m => List.replicate m Basis.rect)
    (fun m => List.length_replicate m 1)
    (fun m b hb => by
      have := List.eq_of_mem_replicate hb
      omega)
    ⟨128, 128, roundTripKeyChars, roundTripCtChars⟩ (by decide)).2.2.2.2

/-- C2: for every `targetBits`, the sift-then-slice key derivation step of
`runQKD` either returns a key of length exactly `targetBits`, or reports the
key-too-short error carrying both `targetBits` and the sifted length, the
latter strictly smaller; it never returns a shorter key without erroring. -/
theorem deriveKey_exact_or_error (targetBits : Nat) (bitsA : List Nat)
    (basesA basesB : List Basis) :
    (∀ key, deriveKey targetBits bitsA basesA basesB = .ok key →
      key.length = targetBits) ∧
    (∀ t g, deriveKey targetBits bitsA basesA basesB = .keyTooShort t g →
      t = targetBits ∧ g = (siftBits bitsA basesA basesB).length ∧ g < targetBits) := by
  simp only [deriveKey]
  by_cases h : (siftBits bitsA basesA basesB).length < targetBits
  · rw [if_pos h]
    constructor
    · intro key hk
      cases hk
    · intro t g hg
      obtain ⟨rfl, rfl⟩ := DeriveKeyResult.keyTooShort.inj hg
      exact ⟨rfl, rfl, h⟩
  · rw [if_neg h]
    constructor
    · intro key hk
      have hkey := (DeriveKeyResult.ok.inj hk).symm
      subst hkey
      rw [List.length_take]
      omega
    · intro t g hg
      cases hg

/-- Witness for C2: on concrete inputs both the success branch (key of the
exact requested length) and the error branch (error carrying the target and
the sifted length) are realized. -/
theorem deriveKey_exact_or_error_witness :
    ([1] : List Nat).length = 1 ∧
    (2 = 2 ∧ 0 = (siftBits ([] : List Nat) ([] : List Basis) []).length ∧ 0 < 2) :=
  ⟨(deriveKey_exact_or_error 1 [1] [Basis.rect] [Basis.rect]).1 [1] (by decide),
    (deriveKey_exact_or_error 2 [] [] []).2 2 0 (by decide)⟩

/-- C3: XOR is self-inverse — decrypting the encryption of any bit sequence
with the same equal-length key returns the original sequence. -/
theorem xorBits_self_inverse (K key : List Nat) (_h : key.length = K.length) :
    xorBits (xorBits K key) key = K :=
  xorBits_involution K key

/-- Witness for C3 at a concrete sequence and key of length 4. -/
theorem xorBits_self_inverse_witness :
    xorBits (xorBits [1, 0, 1, 1] [0, 1, 1, 0]) [0, 1, 1, 0] = [1, 0, 1, 1] :=
  xorBits_self_inverse [1, 0, 1, 1] [0, 1, 1, 0] (by decide)

/-- C4: the byte/bit codec round trip — `bitsToBytes (bytesToBits B) = B` for
every byte sequence, and `bytesToBits` emits 8 bits (MSB first) per byte. -/
theorem bytesToBits_roundtrip (B : List Nat) (h : ∀ b ∈ B, b < 256) :
    bitsToBytes (bytesToBits B) = B ∧ (bytesToBits B).length = 8 * B.length :=
  ⟨bitsToBytes_bytesToBits B h, bytesToBits_length B⟩

/-- Witness for C4 at the UTF-8 bytes of `"Hi"`. -/
theorem bytesToBits_roundtrip_witness :
    bitsToBytes (bytesToBits [72, 105]) = [72, 105] ∧
    (bytesToBits [72, 105]).length = 16 :=
  bytesToBits_roundtrip [72, 105] (by decide)

/-- C5: on equal-length inputs, `siftBits` is exactly the order-preserving
subsequence of the sender bits at the indices where the two basis lists
agree; in particular it is a sublist of the sender bits and no longer
than `n`. -/
theorem siftBits_matching_subsequence {β : Type} [DecidableEq β]
    (bitsA : List Nat) (basesA basesB : List β) (n : Nat)
    (hA : bitsA.length = n) (hB : basesA.length = n) (hC : basesB.length = n) :
    siftBits bitsA basesA basesB =
      (((bitsA.zip basesA).zip basesB).filter (fun p => decide (p.1.2 = p.2))).map
        (fun p => p.1.1) ∧
    List.Sublist (siftBits bitsA basesA basesB) bitsA ∧
    (siftBits bitsA basesA basesB).length ≤ n := by
  have heq := siftBits_eq_filter_zip bitsA basesA basesB (by omega) (by omega)
  have hmapfst : ((bitsA.zip basesA).zip basesB).map (fun p => p.1.1) = bitsA := by
    rw [show (fun p : (Nat × β) × β => p.1.1) =
      (Prod.fst ∘ Prod.fst : (Nat × β) × β → Nat) from rfl]
    rw [← List.map_map]
    rw [List.map_fst_zip _ _ (by rw [List.length_zip]; omega)]
    rw [List.map_fst_zip _ _ (by omega)]
  refine ⟨heq, ?_, ?_⟩
  · rw [heq]
    have h1 := (List.filter_sublist (l := (bitsA.zip basesA).zip basesB)
      (p := fun p => decide (p.1.2 = p.2))).map (fun p => p.1.1)
    rw [hmapfst] at h1
    exact h1
  · rw [heq, List.length_map]
    have h2 := List.length_filter_le (fun p : (Nat × β) × β => decide (p.1.2 = p.2))
      ((bitsA.zip basesA).zip basesB)
    rw [List.length_zip, List.length_zip] at h2
    omega

/-- Witness for C5 on a concrete exchange of length 2 with one matching
basis position. -/
theorem siftBits_matching_subsequence_witness :
    siftBits [1, 0] [Basis.rect, Basis.diag] [Basis.rect, Basis.rect] =
      ((([1, 0].zip [Basis.rect, Basis.diag]).zip [Basis.rect, Basis.rect]).filter
        (fun p => decide (p.1.2 = p.2))).map (fun p => p.1.1) ∧
    List.Sublist (siftBits [1, 0] [Basis.rect, Basis.diag] [Basis.rect, Basis.rect]) [1, 0] ∧
    (siftBits [1, 0] [Basis.rect, Basis.diag] [Basis.rect, Basis.rect]).length ≤ 2 :=
  siftBits_matching_subsequence [1, 0] [Basis.rect, Basis.diag] [Basis.rect, Basis.rect] 2
    (by decide) (by decide) (by decide)

/-- C6: on valid non-empty binary inputs, `decryptMessage` reports a length
mismatch (with both parsed lengths) whenever the parsed lengths differ —
even when neither is a multiple of 8 — and reports misalignment (with the
length) only when the lengths agree but are not a multiple of 8: the
mismatch check runs before the alignment check. -/
theorem decryptMessage_mismatch_before_alignment (ct key : List Char)
    (hctv : validateBinaryInput (jsTrim ct) = true)
    (hkeyv : validateBinaryInput (jsTrim key) = true)
    (hctne : (jsTrim ct).isEmpty = false)
    (hkeyne : (jsTrim key).isEmpty = false) :
    ((parseBinaryString (jsTrim ct)).length ≠ (parseBinaryString (jsTrim key)).length →
      decryptMessage ct key =
        .lengthMismatch (parseBinaryString (jsTrim ct)).length
          (parseBinaryString (jsTrim key)).length) ∧
    ((parseBinaryString (jsTrim ct)).length = (parseBinaryString (jsTrim key)).length →
      (parseBinaryString (jsTrim ct)).length % 8 ≠ 0 →
      decryptMessage ct key = .notByteAligned (parseBinaryString (jsTrim ct)).length) := by
  constructor
  · intro hne
    simp only [decryptMessage]
    rw [hctne, hkeyne, Bool.or_self, if_neg (by decide)]
    rw [hctv, if_neg (by decide), hkeyv, if_neg (by decide)]
    rw [if_pos hne]
  · intro heq h8
    simp only [decryptMessage]
    rw [hctne, hkeyne, Bool.or_self, if_neg (by decide)]
    rw [hctv, if_neg (by decide), hkeyv, if_neg (by decide)]
    rw [if_neg (fun hc => hc heq), if_pos h8]

/-- Witness for C6: the two boundary examples — an 8-bit ciphertext with a
7-bit key yields the mismatch error with both lengths, and 7-bit inputs of
equal length yield the misalignment error with that length. -/
theorem decryptMessage_mismatch_before_alignment_witness :
    decryptMessage ['0', '0', '0', '0', '0', '0', '0', '0'] ['0', '0', '0', '0', '0', '0', '0'] =
      .lengthMismatch 8 7 ∧
    decryptMessage ['0', '0', '0', '0', '0', '0', '0'] ['0', '0', '0', '0', '0', '0', '0'] =
      .notByteAligned 7 :=
  ⟨(decryptMessage_mismatch_before_alignment
      ['0', '0', '0', '0', '0', '0', '0', '0'] ['0', '0', '0', '0', '0', '0', '0']
      (by decide) (by decide) (by decide) (by decide)).1 (by decide),
    (decryptMessage_mismatch_before_alignment
      ['0', '0', '0', '0', '0', '0', '0'] ['0', '0', '0', '0', '0', '0', '0']
      (by decide) (by decide) (by decide) (by decide)).2 (by decide) (by decide)⟩

/-- C7 counterexample: the `validateBinaryInput` variant at
src/docs/script.js:372-374 (regex `^[01\s]+$`) returns `false` on the empty
string, contradicting the claim that the validator accepts the empty string;
the `^[01\s]*$` variant does accept it. -/
theorem validateBinaryInput_empty_counterexample :
    validateBinaryInputNonempty [] = false ∧ validateBinaryInput [] = true :=
  ⟨rfl, rfl⟩

/-- C7 (amended): the `^[01\s]*$` variants (src/docs/script.js:98-100,
src/unnamed/part_001:75-77) return `true` iff every character is `0`, `1` or
whitespace — in particular `true` on the empty string — while the
`^[01\s]+$` variant (src/docs/script.js:372-374) additionally requires the
string to be non-empty, so it returns `false` on the empty string. -/
theorem validateBinaryInput_characterization (s : List Char) :
    (validateBinaryInput s = true ↔
      ∀ c ∈ s, c = '0' ∨ c = '1' ∨ isSpaceJs c = true) ∧
    (validateBinaryInputNonempty s = true ↔
      s ≠ [] ∧ ∀ c ∈ s, c = '0' ∨ c = '1' ∨ isSpaceJs c = true) := by
  have hclass : ∀ c : Char, isBinaryOrSpace c = true ↔
      (c = '0' ∨ c = '1' ∨ isSpaceJs c = true) := by
    intro c
    simp only [isBinaryOrSpace, Bool.or_eq_true, decide_eq_true_eq]
    exact or_assoc
  constructor
  · rw [validateBinaryInput_iff]
    exact forall₂_congr (fun c _ => hclass c)
  · rw [validateBinaryInputNonempty_iff]
    exact and_congr Iff.rfl (forall₂_congr (fun c _ => hclass c))

/-- C8 counterexample: the claim says every variant of the default path
draws from a cryptographically secure generator, but the src/unnamed/part_001
variant draws every bit from `Math.random`, a general-purpose PRNG. -/
theorem randomBits_api_counterexample :
    (randomBitsApiPart001 = RngApi.cryptoGetRandomValues) = False ∧
    randomBitsApiPart001 = RngApi.mathRandom :=
  ⟨eq_false (by decide), rfl⟩

/-- C8 (amended): the src/docs/script.js `randomBits` draws from
`crypto.getRandomValues` (CSPRNG) while the src/unnamed/part_001 variant
draws from `Math.random`; both variants only ever produce bits in `{0, 1}`,
and the byte-to-bit map `b % 2` of the CSPRNG path sends exactly half of the
256 byte values to each bit value. -/
theorem randomBits_api_and_range :
    randomBitsApiScriptJs = RngApi.cryptoGetRandomValues ∧
    randomBitsApiPart001 = RngApi.mathRandom ∧
    (∀ draws : List Nat, ∀ b ∈ randomBitsOfBytes draws, b ≤ 1) ∧
    (∀ draws : List ℚ, ∀ b ∈ randomBitsOfFloats draws, b ≤ 1) ∧
    ((List.range 256).filter (fun b => decide (b % 2 = 0))).length = 128 ∧
    ((List.range 256).filter (fun b => decide (b % 2 = 1))).length = 128 := by
  refine ⟨rfl, rfl, ?_, ?_, by decide, by decide⟩
  · intro draws b hb
    obtain ⟨x, _, rfl⟩ := List.mem_map.mp hb
    omega
  · intro draws b hb
    obtain ⟨x, _, rfl⟩ := List.mem_map.mp hb
    split <;> omega

/-- Witness for C8 (amended): the bit produced from a concrete CSPRNG byte
draw is in range. -/
theorem randomBits_api_and_range_witness : (1 : Nat) ≤ 1 :=
  randomBits_api_and_range.2.2.1 [3] 1 (by decide)

/-- C9: the strict `bitsToBytes` (drops a trailing partial chunk) and the
lenient one (zero-pads it) agree on every bit sequence whose length is a
multiple of 8, and on the one-bit sequence `[1]` they differ: the strict one
returns `len / 8 = 0` bytes, the lenient one `(len + 7) / 8 = 1` byte. -/
theorem bitsToBytes_strict_vs_pad :
    (∀ bits : List Nat, bits.length % 8 = 0 → bitsToBytes bits = bitsToBytesPad bits) ∧
    (([1] : List Nat).length % 8 ≠ 0 ∧
      (bitsToBytes [1]).length = ([1] : List Nat).length / 8 ∧
      (bitsToBytesPad [1]).length = (([1] : List Nat).length + 7) / 8 ∧
      (bitsToBytes [1]).length ≠ (bitsToBytesPad [1]).length) := by
  constructor
  · intro bits h8
    unfold bitsToBytes bitsToBytesPad
    rw [show bits.length - bits.length % 8 = bits.length from by omega, List.take_length]
    apply List.map_congr_left
    intro chunk hchunk
    rw [chunks8_length_eight bits h8 chunk hchunk]
    simp
  · exact ⟨by decide, by decide, by decide, by decide⟩

/-- Witness for C9 at a byte-aligned sequence of 8 bits. -/
theorem bitsToBytes_strict_vs_pad_witness :
    bitsToBytes [1, 0, 1, 1, 0, 1, 1, 1] = bitsToBytesPad [1, 0, 1, 1, 0, 1, 1, 1] :=
  bitsToBytes_strict_vs_pad.1 [1, 0, 1, 1, 0, 1, 1, 1] (by decide)

/-- C10: `xorBits` called with a key shorter than the data does not fail: the
result keeps the data's length and every position at or beyond the key's
length passes the data bit through unchanged (XOR with the missing key bit
coerced to 0). -/
theorem xorBits_short_key (a b : List Nat) (_h : b.length < a.length) :
    (xorBits a b).length = a.length ∧
    ∀ i, b.length ≤ i → (xorBits a b)[i]? = a[i]? := by
  refine ⟨xorBits_length a b, ?_⟩
  intro i hi
  exact xorBitsAux_getElem?_of_ge b 0 a i (by omega)

/-- Witness for C10: a 3-bit input with a 1-bit key keeps length 3 and
leaks position 2 unchanged. -/
theorem xorBits_short_key_witness :
    (xorBits [1, 0, 1] [1]).length = 3 ∧
    (xorBits [1, 0, 1] [1])[2]? = ([1, 0, 1] : List Nat)[2]? :=
  ⟨(xorBits_short_key [1, 0, 1] [1] (by decide)).1,
    (xorBits_short_key [1, 0, 1] [1] (by decide)).2 2 (by decide)⟩

end Qkd
